import Mathlib

/-!
Shallow embedding of the buffered Direct-I/O writer from directio.go
(package directio, type DirectIO in the source; named Dio here because of
local naming constraints).

The writer talks to its file descriptor through five capabilities
(write, sync, fadvise, set-direct-mode, and the alignment discovery
syscalls).  Descriptor behaviour is modelled by an explicit oracle: a
script of responses consumed in order, with the empty script meaning
that every call fully succeeds.  Every descriptor interaction is
recorded in an event trace, so that temporal properties (which bytes
were handed to the descriptor, and in which cache-bypass mode) can be
stated directly.

Machine integers (Go int / int64) are modelled as Nat where the code
keeps them non-negative, with the one genuinely bit-level operation
(len(p) & -blockSize) modelled as a 64-bit two's-complement bitwise
and.  Memory addresses appear only through the alignment check
align(p, blockSize); an input slice is therefore a pair of a start
address and its bytes.
-/

/-- Error values produced by the code (Go error values). -/
inductive DErr where
  /-- allocAlignedBuf: invalid block size. -/
  | invalidBlockSize
  /-- allocAlignedBuf: size must be greater than zero. -/
  | sizeNotPositive
  /-- allocAlignedBuf: can not allocate an aligned buffer. -/
  | cantAlloc
  /-- Write on a closed writer. -/
  | writerClosed
  /-- Close on an already closed writer. -/
  | alreadyClosed
  /-- io.ErrShortWrite, produced by flush. -/
  | shortWrite
  /-- ErrFSNoDIOSupport from the statx helper. -/
  | fsNoDIOSupport
  /-- An arbitrary underlying system / descriptor error. -/
  | sys (code : Nat)
  /-- Marker for a run of the Write loop that exceeds its fuel.  The Go
  loop diverges in exactly those runs (a descriptor that keeps answering
  0 bytes written with a nil error), so this value is unreachable for
  any descriptor honouring the io.Writer contract. -/
  | outOfFuel
deriving DecidableEq, Repr

/-- Events of the descriptor interaction trace. -/
inductive Ev where
  /-- A call to f.Write: bytes requested, count returned, error returned. -/
  | write (req : List Nat) (n : Nat) (e : Option DErr)
  /-- A call to setDirectIO with the requested mode and its result. -/
  | setDirect (mode : Bool) (e : Option DErr)
  /-- A call to f.Sync and its result. -/
  | sync (e : Option DErr)
  /-- The unix.Fadvise FADV_DONTNEED hint (result always ignored). -/
  | fadvise
deriving DecidableEq, Repr

/-- A scripted response for one f.Write call.  ok means the write fully
succeeds; fail n e means n bytes were written (clamped to the request
size) and error e is returned; shortOk is a short write with a nil
error, which violates the io.Writer contract but is exactly the case
flush defends against. -/
inductive WResp where
  | ok
  | fail (n : Nat) (e : DErr)
  | shortOk (n : Nat)
deriving DecidableEq, Repr

/-- Whether a scripted write response honours the io.Writer contract
(an error must accompany any short write). -/
def WResp.isHonest : WResp → Bool
  | .shortOk _ => false
  | _ => true

/-- Descriptor oracle: scripted responses for f.Write, setDirectIO and
f.Sync, consumed in order.  An exhausted script answers every further
call with full success. -/
structure Oracle where
  writes : List WResp
  toggles : List (Option DErr)
  syncs : List (Option DErr)
deriving DecidableEq, Repr

/-- The environment in which every descriptor call fully succeeds. -/
def successOracle : Oracle := ⟨[], [], []⟩

/-- An oracle whose write responses all honour the io.Writer contract. -/
def Oracle.Honest (o : Oracle) : Prop := ∀ r ∈ o.writes, r.isHonest = true

instance (o : Oracle) : Decidable o.Honest := by
  unfold Oracle.Honest; infer_instance

/-- Model of one f.Write call: consumes the next scripted response
(or fully succeeds when the script is exhausted), clamps the reported
count to the request size, and records the event. -/
def fWrite (o : Oracle) (req : List Nat) : (Nat × Option DErr) × Oracle × Ev :=
  match o.writes with
  | [] => ((req.length, none), o, .write req req.length none)
  | r :: rs =>
    let res : Nat × Option DErr :=
      match r with
      | .ok => (req.length, none)
      | .fail n e => (min n req.length, some e)
      | .shortOk n => (min n req.length, none)
    (res, { o with writes := rs }, .write req res.1 res.2)

/-- Model of one setDirectIO call. -/
def fSetDirect (o : Oracle) (mode : Bool) : Option DErr × Oracle × Ev :=
  match o.toggles with
  | [] => (none, o, .setDirect mode none)
  | t :: ts => (t, { o with toggles := ts }, .setDirect mode t)

/-- Model of one f.Sync call. -/
def fSync (o : Oracle) : Option DErr × Oracle × Ev :=
  match o.syncs with
  | [] => (none, o, .sync none)
  | t :: ts => (t, { o with syncs := ts }, .sync t)

/-- An input slice handed to Write: its start address (for the
alignment check) and its bytes. -/
structure Ptr where
  addr : Nat
  data : List Nat
deriving DecidableEq, Repr

/-- Go slicing p[n:] advances the start address. -/
def Ptr.dropP (p : Ptr) (n : Nat) : Ptr := ⟨p.addr + n, p.data.drop n⟩

/-- Go slicing p[:n] keeps the start address. -/
def Ptr.takeP (p : Ptr) (n : Nat) : Ptr := ⟨p.addr, p.data.take n⟩

/-- Source function align: offset of buffer b modulo size
(0 for non-positive size or an empty buffer). -/
def align (p : Ptr) (size : Nat) : Nat :=
  if size = 0 ∨ p.data.length = 0 then 0 else p.addr % size

/-- Number of bytes transferred by Go copy(dst[off:], src). -/
def copyCount (dst : List Nat) (off : Nat) (src : List Nat) : Nat :=
  min (dst.length - off) src.length

/-- Result of Go copy(dst[off:], src) on the full destination list. -/
def copyInto (dst : List Nat) (off : Nat) (src : List Nat) : List Nat :=
  dst.take off ++ src.take (dst.length - off) ++ dst.drop (off + copyCount dst off src)

/-- Go expression x & -b on 64-bit ints, for 0 < b: bitwise and with the
two's-complement representation of -b. -/
def goAndNeg (x b : Nat) : Nat := x &&& (2 ^ 64 - b)

/-- The writer state (struct DirectIO of the source). -/
structure Dio where
  /-- Contents of the aligned buffer d.buf (fixed capacity). -/
  bufData : List Nat
  /-- Fill length d.n. -/
  n : Nat
  /-- Sticky error d.err. -/
  err : Option DErr
  /-- Block size governing alignment and rounding. -/
  blockSize : Nat
  /-- Closed flag d.isClosed. -/
  isClosed : Bool
deriving DecidableEq, Repr

/-- Source accessor Available: unused bytes in the buffer. -/
def Dio.Available (d : Dio) : Nat := d.bufData.length - d.n

/-- Source accessor Buffered: bytes staged in the buffer. -/
def Dio.Buffered (d : Dio) : Nat := d.n

/-- Result of an internal flush. -/
structure FlushRes where
  err : Option DErr
  state : Dio
  oracle : Oracle
  trace : List Ev
deriving DecidableEq, Repr

/-- Source method flush: writes buf[0:n] to the descriptor, converts a
short write with nil error into io.ErrShortWrite, shifts the unwritten
remainder to the start of the buffer on error, and reduces n by the
bytes actually written.  It does not latch d.err itself. -/
def Dio.flush (d : Dio) (o : Oracle) : FlushRes :=
  if d.err ≠ none then ⟨d.err, d, o, []⟩
  else if d.n = 0 then ⟨none, d, o, []⟩
  else
    match fWrite o (d.bufData.take d.n) with
    | ((nw, e0), o, ev) =>
      let e := if nw < d.n ∧ e0 = none then some DErr.shortWrite else e0
      let buf :=
        if e ≠ none ∧ 0 < nw ∧ nw < d.n then
          (d.bufData.drop nw).take (d.n - nw) ++ d.bufData.drop (d.n - nw)
        else d.bufData
      ⟨e, { d with bufData := buf, n := d.n - nw }, o, [ev]⟩

/-- Result of a Write call. -/
structure WriteRes where
  nn : Nat
  err : Option DErr
  state : Dio
  oracle : Oracle
  trace : List Ev
deriving DecidableEq, Repr

/-- The Write loop of the source, with explicit fuel.  Each recursive
call models one iteration of
for len(p) >= d.Available() && d.err == nil.  Exhausted fuel returns
the outOfFuel marker; the Go loop diverges in exactly those runs. -/
def writeAux : Nat → Dio → Ptr → Oracle → Nat → WriteRes
  | 0, d, _, o, nn => ⟨nn, some .outOfFuel, d, o, []⟩
  | fuel + 1, d, p, o, nn =>
    if d.bufData.length - d.n ≤ p.data.length ∧ d.err = none then
      if d.n = 0 ∧ align p d.blockSize = 0 then
        if p.data.length % d.blockSize = 0 then
          -- Case A1: write the whole input directly, bypassing the buffer.
          match fWrite o p.data with
          | ((nw, e), o, ev) =>
            let r := writeAux fuel { d with err := e } (p.dropP nw) o (nn + nw)
            { r with trace := ev :: r.trace }
        else
          -- Case A2: write the aligned prefix p[:l] directly, stage the rest.
          match fWrite o (p.data.take (goAndNeg p.data.length d.blockSize)) with
          | ((nl, e), o, ev) =>
            let l := goAndNeg p.data.length d.blockSize
            let k := copyCount d.bufData d.n (p.data.drop l)
            let d := { d with err := e, bufData := copyInto d.bufData d.n (p.data.drop l),
                              n := d.n + k }
            let r := writeAux fuel d (p.dropP (k + nl)) o (nn + (k + nl))
            { r with trace := ev :: r.trace }
      else
        -- Case B: top up the buffer and force a flush.
        let k := copyCount d.bufData d.n p.data
        let dmid := { d with bufData := copyInto d.bufData d.n p.data, n := d.n + k }
        let f := dmid.flush o
        match f.err with
        | some e => ⟨nn, some e, f.state, f.oracle, f.trace⟩
        | none =>
          let r := writeAux fuel f.state (p.dropP k) f.oracle (nn + k)
          { r with trace := f.trace ++ r.trace }
    else
      match d.err with
      | some e => ⟨nn, some e, d, o, []⟩
      | none =>
        let k := copyCount d.bufData d.n p.data
        ⟨nn + k, none, { d with bufData := copyInto d.bufData d.n p.data, n := d.n + k }, o, []⟩

/-- Source method Write.  The fuel 2 * len(p) + 2 dominates the number
of loop iterations for every descriptor honouring the io.Writer
contract. -/
def Dio.Write (d : Dio) (p : Ptr) (o : Oracle) : WriteRes :=
  if d.isClosed then ⟨0, some .writerClosed, d, o, []⟩
  else writeAux (2 * p.data.length + 2) d p o 0

/-- Result of a Close call. -/
structure CloseRes where
  err : Option DErr
  state : Dio
  oracle : Oracle
  trace : List Ev
deriving DecidableEq, Repr

/-- Phase 2 of Close: if a tail remains, disable direct mode, write the
tail through the page cache, unconditionally re-enable direct mode,
then sync (result discarded) and issue the fadvise hint. -/
def closePhase2 (d : Dio) (o : Oracle) : CloseRes :=
  if d.n = 0 then ⟨none, d, o, []⟩
  else
    match fSetDirect o false with
    | (some e, o, ev1) => ⟨some e, d, o, [ev1]⟩
    | (none, o, ev1) =>
      match fWrite o (d.bufData.take d.n) with
      | ((nw, e2), o, ev2) =>
        match fSetDirect o true with
        | (_, o, ev3) =>
          match e2 with
          | some e => ⟨some e, d, o, [ev1, ev2, ev3]⟩
          | none =>
            let d := { d with n := d.n - nw }
            match fSync o with
            | (_, o, ev4) => ⟨none, d, o, [ev1, ev2, ev3, ev4, .fadvise]⟩

/-- Source method Close: sets isClosed first, then drains the buffer in
two phases (aligned bulk through direct I/O, then the bounded tail
through the page cache). -/
def Dio.Close (d : Dio) (o : Oracle) : CloseRes :=
  if d.isClosed then ⟨some .alreadyClosed, d, o, []⟩
  else
    let d := { d with isClosed := true }
    if d.n = 0 then ⟨none, d, o, []⟩
    else
      let alignedSize := d.n - d.n % d.blockSize
      if 0 < alignedSize then
        match fWrite o (d.bufData.take alignedSize) with
        | ((nw, e), o, ev) =>
          match e with
          | some err => ⟨some err, d, o, [ev]⟩
          | none =>
            let d := { d with
              bufData := (d.bufData.drop nw).take (d.n - nw) ++ d.bufData.drop (d.n - nw),
              n := d.n - nw }
            let r := closePhase2 d o
            { r with trace := ev :: r.trace }
      else
        closePhase2 d o

/-- Default buffer size (16 KB). -/
def defaultBufSize : Nat := 16384

/-- Source function GetBestAlignment, as a function of the statfs
syscall outcome for the checked path: on a statfs error it falls back
to 4096; a reported block size below 512 is treated as unreliable
(4096); a size between 512 and 4095 is upgraded to 4096; anything else
is used unchanged. -/
def GetBestAlignment (statfsErr : Bool) (bsize : Int) : Int :=
  if statfsErr then 4096
  else if bsize < 512 then 4096
  else if bsize < 4096 then 4096
  else bsize

/-- Statx outcome consumed by DIOMemAlign: the syscall may fail with one
of the unsupported errnos (ENOSYS / EOPNOTSUPP / ENOTSUP), fail with any
other error, or succeed with a result mask and a Dio_mem_align value. -/
inductive StatxResult where
  | errUnsupported
  | errOther (code : Nat)
  | ok (maskHasDioalign : Bool) (dioMemAlign : Nat)
deriving DecidableEq, Repr

/-- Source function DIOMemAlign (linux statx helper): maps the
unsupported errnos and a missing or zero Dio_mem_align to
ErrFSNoDIOSupport, propagates any other syscall error, and otherwise
returns the kernel's Direct-I/O memory alignment. -/
def DIOMemAlign : StatxResult → Except DErr Nat
  | .errUnsupported => .error .fsNoDIOSupport
  | .errOther c => .error (.sys c)
  | .ok mask a =>
    if mask = false then .error .fsNoDIOSupport
    else if a = 0 then .error .fsNoDIOSupport
    else .ok a

/-- Source function allocAlignedBuf: over-allocates by one block at some
base address, slices to an aligned window, and re-checks alignment.
The buffer contents are the zeros Go's make produces. -/
def allocAlignedBuf (blockSize nsz baseAddr : Nat) : Except DErr (Nat × List Nat) :=
  if blockSize = 0 then .error .invalidBlockSize
  else if nsz = 0 then .error .sizeNotPositive
  else
    let a1 := baseAddr % blockSize
    let offset := if a1 ≠ 0 then blockSize - a1 else 0
    let addr := baseAddr + offset
    if a1 = 0 then .ok (addr, List.replicate nsz 0)
    else if addr % blockSize ≠ 0 then .error .cantAlloc
    else .ok (addr, List.replicate nsz 0)

/-- Source function NewSize, as a function of the statfs outcome used by
GetBestAlignment, the requested size, and the base address the
allocator happens to return.  checkDirectIO is a platform capability
outside this file's scope and is assumed to succeed.  Note that the
block size comes from GetBestAlignment alone. -/
def NewSize (statfsErr : Bool) (bsize : Int) (size : Int) (baseAddr : Nat) :
    Except DErr Dio :=
  let blockSize := GetBestAlignment statfsErr bsize
  let size1 := if size ≤ 0 then (defaultBufSize : Int) else size
  let size2 := if size1 < (defaultBufSize : Int) then (defaultBufSize : Int) else size1
  let size3 := if size2 % blockSize ≠ 0 then size2 + (blockSize - size2 % blockSize) else size2
  match allocAlignedBuf blockSize.toNat size3.toNat baseAddr with
  | .error e => .error e
  | .ok (_, buf) =>
    .ok { bufData := buf, n := 0, err := none, blockSize := blockSize.toNat,
          isClosed := false }

/-- Concatenation of the bytes actually accepted by the descriptor over
a trace (for each write event, the accepted prefix of the request). -/
def acceptedBytes : List Ev → List Nat
  | [] => []
  | .write req nw _ :: tl => req.take nw ++ acceptedBytes tl
  | _ :: tl => acceptedBytes tl

/-- Total count of bytes accepted by the descriptor over a trace. -/
def acceptedCount : List Ev → Nat
  | [] => 0
  | .write _ nw _ :: tl => nw + acceptedCount tl
  | _ :: tl => acceptedCount tl

/-- Total number of bytes handed to the descriptor's write operation
while cache-bypass mode is disabled, starting from the given mode.
A failed setDirectIO call leaves the mode unchanged. -/
def disabledBytesFrom (mode : Bool) : List Ev → Nat
  | [] => 0
  | .write req _ _ :: tl => (if mode then 0 else req.length) + disabledBytesFrom mode tl
  | .setDirect m e :: tl => disabledBytesFrom (if e = none then m else mode) tl
  | _ :: tl => disabledBytesFrom mode tl

/-- Descriptor mode after processing a trace, starting from a given mode. -/
def modeAfter (m : Bool) : List Ev → Bool
  | [] => m
  | .setDirect m2 e :: tl => modeAfter (if e = none then m2 else m) tl
  | _ :: tl => modeAfter m tl

/-- A trace consisting only of write events. -/
def onlyWrites (tr : List Ev) : Prop :=
  ∀ ev ∈ tr, ∃ req nw e, ev = Ev.write req nw e

/-- Run a sequence of Write calls, collecting the final state, oracle
and concatenated trace. -/
def runWrites : Dio → List Ptr → Oracle → Dio × Oracle × List Ev
  | d, [], o => (d, o, [])
  | d, p :: ps, o =>
    let r := d.Write p o
    let rest := runWrites r.state ps r.oracle
    (rest.1, rest.2.1, r.trace ++ rest.2.2)

/-- Run a sequence of Write calls followed by Close. -/
def writerRun (d : Dio) (ps : List Ptr) (o : Oracle) : CloseRes :=
  let w := runWrites d ps o
  let c := w.1.Close w.2.1
  { c with trace := w.2.2 ++ c.trace }

/-- Prepend one event to the trace of a Write result. -/
def consTrace (ev : Ev) (r : WriteRes) : WriteRes := { r with trace := ev :: r.trace }

/-- Prepend a list of events to the trace of a Write result. -/
def appendTrace (tr : List Ev) (r : WriteRes) : WriteRes := { r with trace := tr ++ r.trace }

/-- Modelled from the spec: the AlignmentResolver resolution order as
the specification states it (query the kernel Direct-I/O alignment
first; fall back to the clamped filesystem block size only on the
unsupported signal or a zero report; propagate other failures).  Used
only to compare the spec's resolution order against the code's. -/
def specResolveAlignment (dio : StatxResult) (statfsErr : Bool) (bsize : Int) :
    Except DErr Int :=
  match DIOMemAlign dio with
  | .ok v => .ok (v : Int)
  | .error .fsNoDIOSupport => .ok (GetBestAlignment statfsErr bsize)
  | .error e => .error e

/-! Helper lemmas about the embedded operations. -/

theorem getBestAlignment_eq (se : Bool) (b : Int) :
    GetBestAlignment se b = if se = true ∨ b < 4096 then 4096 else b := by
  unfold GetBestAlignment
  split_ifs <;> simp_all <;> omega

theorem getBestAlignment_pos (se : Bool) (b : Int) : 4096 ≤ GetBestAlignment se b := by
  unfold GetBestAlignment
  split_ifs <;> omega

theorem allocAlignedBuf_ok (bs nsz a : Nat) (hbs : 0 < bs) (hn : 0 < nsz) :
    ∃ addr, allocAlignedBuf bs nsz a = .ok (addr, List.replicate nsz 0) := by
  unfold allocAlignedBuf
  dsimp only
  rw [if_neg (by omega), if_neg (by omega)]
  by_cases h : a % bs = 0
  · exact ⟨a + 0, by rw [if_pos h]; simp [h]⟩
  · have hlt : a % bs < bs := Nat.mod_lt _ hbs
    have hle : a % bs ≤ a := Nat.mod_le a bs
    have hdm : bs * (a / bs) + a % bs = a := Nat.div_add_mod a bs
    have key : (a + (bs - a % bs)) % bs = 0 := by
      have h1 : a + (bs - a % bs) = bs * (a / bs) + bs := by omega
      rw [h1, show bs * (a / bs) + bs = bs * (a / bs + 1) by ring, Nat.mul_mod_right]
    refine ⟨a + (bs - a % bs), ?_⟩
    dsimp only
    rw [if_pos h, if_neg h, if_neg (by simp [key])]

theorem newSize_ok (se : Bool) (b s : Int) (a : Nat) :
    ∃ d, NewSize se b s a = .ok d ∧ d.blockSize = (GetBestAlignment se b).toNat ∧
      d.n = 0 ∧ d.err = none ∧ d.isClosed = false := by
  have hpos := getBestAlignment_pos se b
  unfold NewSize
  dsimp only
  set bs := GetBestAlignment se b with hbs
  set size1 : Int := if s ≤ 0 then (defaultBufSize : Int) else s with hs1
  set size2 : Int := if size1 < (defaultBufSize : Int) then (defaultBufSize : Int) else size1 with hs2
  set size3 : Int := if size2 % bs ≠ 0 then size2 + (bs - size2 % bs) else size2 with hs3
  have h2 : (defaultBufSize : Int) ≤ size2 := by
    rw [hs2]; split_ifs <;> omega
  have hm0 : 0 ≤ size2 % bs := Int.emod_nonneg _ (by omega)
  have hm1 : size2 % bs < bs := Int.emod_lt_of_pos _ (by omega)
  have h3 : (defaultBufSize : Int) ≤ size3 := by
    rw [hs3]; split_ifs <;> omega
  have hszpos : 0 < size3.toNat := by
    simp [defaultBufSize] at h3; omega
  obtain ⟨addr, halloc⟩ := allocAlignedBuf_ok bs.toNat size3.toNat a (by omega) hszpos
  rw [halloc]
  exact ⟨_, rfl, rfl, rfl, rfl, rfl⟩

theorem goAndNeg_pow (x k : Nat) (hx : x < 2 ^ 64) (hk : k ≤ 64) :
    goAndNeg x (2 ^ k) = x - x % 2 ^ k := by
  unfold goAndNeg
  apply Nat.eq_of_testBit_eq
  intro i
  rw [Nat.testBit_land]
  have hr : x - x % 2 ^ k = (x >>> k) <<< k := by
    rw [Nat.shiftRight_eq_div_pow, Nat.shiftLeft_eq, Nat.mul_comm]
    have hdm := Nat.div_add_mod x (2 ^ k)
    omega
  have hm : 2 ^ 64 - 2 ^ k = (2 ^ (64 - k) - 1) <<< k := by
    rw [Nat.shiftLeft_eq, Nat.sub_mul, Nat.one_mul, ← Nat.pow_add, Nat.sub_add_cancel hk]
  rw [hr, hm, Nat.testBit_shiftLeft, Nat.testBit_shiftLeft, Nat.testBit_two_pow_sub_one,
    Nat.testBit_shiftRight]
  by_cases hik : k ≤ i
  · rw [show k + (i - k) = i by omega]
    by_cases hi64 : i < 64
    · simp [hik, Nat.lt_of_le_of_lt, show i - k < 64 - k by omega]
    · have hbit : x.testBit i = false :=
        Nat.testBit_lt_two_pow (Nat.lt_of_lt_of_le hx (Nat.pow_le_pow_right (by omega) (by omega)))
      simp [hbit]
  · simp [show ¬(i ≥ k) by omega]

theorem copyInto_length (dst : List Nat) (off : Nat) (src : List Nat) (h : off ≤ dst.length) :
    (copyInto dst off src).length = dst.length := by
  simp [copyInto, copyCount]
  omega

theorem copyInto_nil (dst : List Nat) (off : Nat) : copyInto dst off [] = dst := by
  simp [copyInto, copyCount]

theorem take_min (l : List Nat) (m : Nat) : l.take m = l.take (min m l.length) := by
  by_cases h : m ≤ l.length
  · rw [Nat.min_eq_left h]
  · rw [Nat.min_eq_right (by omega), List.take_length, List.take_of_length_le (by omega)]

theorem drop_min (l : List Nat) (m : Nat) : l.drop m = l.drop (min m l.length) := by
  by_cases h : m ≤ l.length
  · rw [Nat.min_eq_left h]
  · rw [Nat.min_eq_right (by omega), List.drop_length, List.drop_eq_nil_iff.mpr (by omega)]

theorem copyInto_take (dst : List Nat) (off : Nat) (src : List Nat) (h : off ≤ dst.length) :
    (copyInto dst off src).take (off + copyCount dst off src) =
      dst.take off ++ src.take (copyCount dst off src) := by
  unfold copyInto
  rw [List.take_append_of_le_length (by simp [copyCount]; omega)]
  rw [List.take_of_length_le (by simp [copyCount])]
  congr 1
  rw [take_min src (dst.length - off)]
  rfl

theorem split_concat (q : List Nat) (l k : Nat) :
    q.take l ++ ((q.drop l).take k ++ q.drop (k + (q.take l).length)) = q := by
  rw [show (q.take l).length = min l q.length by simp]
  rw [take_min q l, drop_min q l]
  rw [← List.append_assoc, ← List.take_add, Nat.add_comm k, List.take_append_drop]

theorem fWrite_success (req : List Nat) :
    fWrite successOracle req = ((req.length, none), successOracle, .write req req.length none) := rfl

theorem fSetDirect_success (m : Bool) :
    fSetDirect successOracle m = (none, successOracle, .setDirect m none) := rfl

theorem fSync_success : fSync successOracle = (none, successOracle, .sync none) := rfl

theorem fWrite_spec (o : Oracle) (req : List Nat) (nw : Nat) (e : Option DErr)
    (o2 : Oracle) (ev : Ev) (h : fWrite o req = ((nw, e), o2, ev)) :
    nw ≤ req.length ∧ ev = .write req nw e := by
  obtain ⟨ws, ts, ss⟩ := o
  cases ws with
  | nil =>
    simp only [fWrite, Prod.mk.injEq] at h
    obtain ⟨⟨h1, h2⟩, h3, h4⟩ := h
    subst h1; subst h2; subst h4
    simp
  | cons r rs =>
    cases r with
    | ok =>
      simp only [fWrite, Prod.mk.injEq] at h
      obtain ⟨⟨h1, h2⟩, h3, h4⟩ := h
      subst h1; subst h2; subst h4
      simp
    | fail n0 e0 =>
      simp only [fWrite, Prod.mk.injEq] at h
      obtain ⟨⟨h1, h2⟩, h3, h4⟩ := h
      subst h1; subst h2; subst h4
      exact ⟨Nat.min_le_right _ _, rfl⟩
    | shortOk n0 =>
      simp only [fWrite, Prod.mk.injEq] at h
      obtain ⟨⟨h1, h2⟩, h3, h4⟩ := h
      subst h1; subst h2; subst h4
      exact ⟨Nat.min_le_right _ _, rfl⟩

theorem fSetDirect_spec (o : Oracle) (m : Bool) (e : Option DErr) (o2 : Oracle) (ev : Ev)
    (h : fSetDirect o m = (e, o2, ev)) : ev = .setDirect m e := by
  obtain ⟨ws, ts, ss⟩ := o
  cases ts with
  | nil =>
    simp [fSetDirect] at h
    obtain ⟨h1, h2, h3⟩ := h
    rw [← h1, ← h3]
  | cons t ts =>
    simp [fSetDirect] at h
    obtain ⟨h1, h2, h3⟩ := h
    rw [← h1, ← h3]

theorem fSync_spec (o : Oracle) (e : Option DErr) (o2 : Oracle) (ev : Ev)
    (h : fSync o = (e, o2, ev)) : ev = .sync e := by
  obtain ⟨ws, ts, ss⟩ := o
  cases ss with
  | nil =>
    simp [fSync] at h
    obtain ⟨h1, h2, h3⟩ := h
    rw [← h1, ← h3]
  | cons t ts =>
    simp [fSync] at h
    obtain ⟨h1, h2, h3⟩ := h
    rw [← h1, ← h3]

theorem fWrite_honest (o : Oracle) (req : List Nat) (nw : Nat) (e : Option DErr)
    (o2 : Oracle) (ev : Ev) (ho : o.Honest) (h : fWrite o req = ((nw, e), o2, ev))
    (he : e = none) : nw = req.length := by
  subst he
  obtain ⟨ws, ts, ss⟩ := o
  cases ws with
  | nil =>
    simp [fWrite] at h
    omega
  | cons r rs =>
    cases r with
    | ok => simp [fWrite] at h; omega
    | fail n0 e0 => simp [fWrite] at h
    | shortOk n0 =>
      have := ho (.shortOk n0) (by simp)
      simp [WResp.isHonest] at this

theorem fWrite_oracle_sub (o : Oracle) (req : List Nat) :
    ∀ r ∈ (fWrite o req).2.1.writes, r ∈ o.writes := by
  obtain ⟨ws, ts, ss⟩ := o
  cases ws with
  | nil => intro r hr; exact hr
  | cons w rs =>
    intro r hr
    simp [fWrite] at hr
    simp [hr]

theorem acceptedCount_append (t1 t2 : List Ev) :
    acceptedCount (t1 ++ t2) = acceptedCount t1 + acceptedCount t2 := by
  induction t1 with
  | nil => simp [acceptedCount]
  | cons ev tl ih => cases ev <;> simp [acceptedCount, ih, Nat.add_assoc]

theorem acceptedBytes_append (t1 t2 : List Ev) :
    acceptedBytes (t1 ++ t2) = acceptedBytes t1 ++ acceptedBytes t2 := by
  induction t1 with
  | nil => simp [acceptedBytes]
  | cons ev tl ih => cases ev <;> simp [acceptedBytes, ih]

theorem disabledBytesFrom_append (m : Bool) (t1 t2 : List Ev) :
    disabledBytesFrom m (t1 ++ t2) =
      disabledBytesFrom m t1 + disabledBytesFrom (modeAfter m t1) t2 := by
  induction t1 generalizing m with
  | nil => simp [disabledBytesFrom, modeAfter]
  | cons ev tl ih =>
    cases ev <;> simp [disabledBytesFrom, modeAfter, ih, Nat.add_assoc]

theorem onlyWrites_disabled (m : Bool) (tr : List Ev) (h : onlyWrites tr) :
    modeAfter m tr = m ∧ disabledBytesFrom true tr = 0 := by
  induction tr generalizing m with
  | nil => simp [disabledBytesFrom, modeAfter]
  | cons ev tl ih =>
    obtain ⟨req, nw, e, hev⟩ := h ev (by simp)
    subst hev
    have ih2 := ih m (fun x hx => h x (by simp [hx]))
    simp [disabledBytesFrom, modeAfter, ih2]

theorem closePhase2_isClosed (d : Dio) (o : Oracle) :
    (closePhase2 d o).state.isClosed = d.isClosed := by
  unfold closePhase2
  repeat' split
  all_goals simp_all

theorem flush_count (d : Dio) (o : Oracle) :
    acceptedCount (d.flush o).trace + (d.flush o).state.n = d.n := by
  unfold Dio.flush
  split
  · simp [acceptedCount]
  · split
    · simp_all [acceptedCount]
    · rcases h : fWrite o (d.bufData.take d.n) with ⟨⟨nw, e0⟩, o2, ev⟩
      obtain ⟨hle, hev⟩ := fWrite_spec _ _ _ _ _ _ h
      dsimp only
      subst hev
      simp only [acceptedCount]
      have : nw ≤ d.n := le_trans hle (by simp)
      omega

theorem flush_onlyWrites (d : Dio) (o : Oracle) : onlyWrites (d.flush o).trace := by
  unfold Dio.flush
  split
  · intro ev hev; simp at hev
  · split
    · intro ev hev; simp at hev
    · rcases h : fWrite o (d.bufData.take d.n) with ⟨⟨nw, e0⟩, o2, ev2⟩
      obtain ⟨hle, hev⟩ := fWrite_spec _ _ _ _ _ _ h
      dsimp only
      intro ev hev2
      simp at hev2
      subst hev2
      exact ⟨_, _, _, hev⟩

theorem flush_oracle_sub (d : Dio) (o : Oracle) :
    ∀ r ∈ (d.flush o).oracle.writes, r ∈ o.writes := by
  unfold Dio.flush
  split
  · intro r hr; exact hr
  · split
    · intro r hr; exact hr
    · rcases h : fWrite o (d.bufData.take d.n) with ⟨⟨nw, e0⟩, o2, ev2⟩
      dsimp only
      intro r hr
      have := fWrite_oracle_sub o (d.bufData.take d.n)
      rw [h] at this
      exact this r hr

theorem flush_frame (d : Dio) (o : Oracle) (hn : d.n ≤ d.bufData.length) :
    (d.flush o).state.bufData.length = d.bufData.length ∧
    (d.flush o).state.n ≤ d.n ∧
    (d.flush o).state.blockSize = d.blockSize ∧
    (d.flush o).state.isClosed = d.isClosed := by
  unfold Dio.flush
  split
  · simp
  · split
    · simp
    · rcases h : fWrite o (d.bufData.take d.n) with ⟨⟨nw, e0⟩, o2, ev2⟩
      obtain ⟨hle, hev⟩ := fWrite_spec _ _ _ _ _ _ h
      have hnw : nw ≤ d.n := le_trans hle (by simp)
      dsimp only
      refine ⟨?_, by omega, rfl, rfl⟩
      have hshift : (List.take (d.n - nw) (List.drop nw d.bufData) ++
          List.drop (d.n - nw) d.bufData).length = d.bufData.length := by
        simp
        omega
      split
      · split
        · exact hshift
        · rfl
      · split
        · exact hshift
        · rfl

theorem flush_zero (d : Dio) (o : Oracle) (he : d.err = none) (hn : d.n = 0) :
    d.flush o = ⟨none, d, o, []⟩ := by
  unfold Dio.flush
  rw [if_neg (by simp [he]), if_pos hn]

theorem flush_success_pos (d : Dio) (he : d.err = none) (hn : d.n ≠ 0)
    (hcap : d.n ≤ d.bufData.length) :
    d.flush successOracle =
      ⟨none, { d with n := 0 }, successOracle,
        [.write (d.bufData.take d.n) d.n none]⟩ := by
  unfold Dio.flush
  rw [if_neg (by simp [he]), if_neg hn]
  rw [fWrite_success]
  have hreq : (d.bufData.take d.n).length = d.n := by simp; omega
  dsimp only
  rw [hreq]
  rw [if_neg (by omega), if_neg (by simp)]
  simp

theorem writeAux_errExit (fuel : Nat) (d : Dio) (p : Ptr) (o : Oracle) (nn : Nat) (e : DErr)
    (he : d.err = some e) :
    writeAux (fuel + 1) d p o nn = ⟨nn, some e, d, o, []⟩ := by
  conv_lhs => unfold writeAux
  rw [if_neg (by simp [he]), he]

theorem writeAux_exit (fuel : Nat) (d : Dio) (p : Ptr) (o : Oracle) (nn : Nat)
    (he : d.err = none) (hlt : p.data.length < d.bufData.length - d.n) :
    writeAux (fuel + 1) d p o nn =
      ⟨nn + copyCount d.bufData d.n p.data, none,
       { d with bufData := copyInto d.bufData d.n p.data,
                n := d.n + copyCount d.bufData d.n p.data }, o, []⟩ := by
  conv_lhs => unfold writeAux
  rw [if_neg (by omega), he]

theorem writeAux_A1 (fuel : Nat) (d : Dio) (p : Ptr) (o o2 : Oracle) (nn nw : Nat)
    (e : Option DErr) (ev : Ev)
    (he : d.err = none) (hge : d.bufData.length - d.n ≤ p.data.length)
    (hn : d.n = 0) (hal : align p d.blockSize = 0)
    (hmul : p.data.length % d.blockSize = 0)
    (hfw : fWrite o p.data = ((nw, e), o2, ev)) :
    writeAux (fuel + 1) d p o nn =
      consTrace ev (writeAux fuel { d with err := e } (p.dropP nw) o2 (nn + nw)) := by
  conv_lhs => unfold writeAux
  rw [if_pos ⟨hge, he⟩, if_pos ⟨hn, hal⟩, if_pos hmul, hfw]
  dsimp only [consTrace]

theorem writeAux_A2 (fuel : Nat) (d : Dio) (p : Ptr) (o o2 : Oracle) (nn nl : Nat)
    (e : Option DErr) (ev : Ev)
    (he : d.err = none) (hge : d.bufData.length - d.n ≤ p.data.length)
    (hn : d.n = 0) (hal : align p d.blockSize = 0)
    (hmul : ¬p.data.length % d.blockSize = 0)
    (hfw : fWrite o (p.data.take (goAndNeg p.data.length d.blockSize)) = ((nl, e), o2, ev)) :
    writeAux (fuel + 1) d p o nn =
      consTrace ev (writeAux fuel
        { d with err := e,
                 bufData := copyInto d.bufData d.n
                   (p.data.drop (goAndNeg p.data.length d.blockSize)),
                 n := d.n + copyCount d.bufData d.n
                   (p.data.drop (goAndNeg p.data.length d.blockSize)) }
        (p.dropP (copyCount d.bufData d.n
            (p.data.drop (goAndNeg p.data.length d.blockSize)) + nl)) o2
        (nn + (copyCount d.bufData d.n
            (p.data.drop (goAndNeg p.data.length d.blockSize)) + nl))) := by
  conv_lhs => unfold writeAux
  rw [if_pos ⟨hge, he⟩, if_pos ⟨hn, hal⟩, if_neg hmul, hfw]
  dsimp only [consTrace]

theorem writeAux_B_err (fuel : Nat) (d : Dio) (p : Ptr) (o : Oracle) (nn : Nat) (f : FlushRes)
    (e : DErr)
    (he : d.err = none) (hge : d.bufData.length - d.n ≤ p.data.length)
    (hB : ¬(d.n = 0 ∧ align p d.blockSize = 0))
    (hf : Dio.flush { d with bufData := copyInto d.bufData d.n p.data, n := d.n + copyCount d.bufData d.n p.data } o = f)
    (hfe : f.err = some e) :
    writeAux (fuel + 1) d p o nn = ⟨nn, some e, f.state, f.oracle, f.trace⟩ := by
  conv_lhs => unfold writeAux
  rw [if_pos ⟨hge, he⟩, if_neg hB]
  dsimp only
  rw [hf, hfe]

theorem writeAux_B_ok (fuel : Nat) (d : Dio) (p : Ptr) (o : Oracle) (nn : Nat) (f : FlushRes)
    (he : d.err = none) (hge : d.bufData.length - d.n ≤ p.data.length)
    (hB : ¬(d.n = 0 ∧ align p d.blockSize = 0))
    (hf : Dio.flush { d with bufData := copyInto d.bufData d.n p.data, n := d.n + copyCount d.bufData d.n p.data } o = f)
    (hfe : f.err = none) :
    writeAux (fuel + 1) d p o nn =
      appendTrace f.trace (writeAux fuel f.state
        (p.dropP (copyCount d.bufData d.n p.data)) f.oracle
        (nn + copyCount d.bufData d.n p.data)) := by
  conv_lhs => unfold writeAux
  rw [if_pos ⟨hge, he⟩, if_neg hB]
  dsimp only
  rw [hf, hfe]
  dsimp only [appendTrace]

theorem writeAux_count (fuel : Nat) : ∀ (d : Dio) (p : Ptr) (o : Oracle) (nn : Nat),
    d.n + (writeAux fuel d p o nn).nn ≤
      nn + acceptedCount (writeAux fuel d p o nn).trace + (writeAux fuel d p o nn).state.n := by
  induction fuel with
  | zero => intro d p o nn; simp [writeAux, acceptedCount]; omega
  | succ fuel ih =>
    intro d p o nn
    by_cases hcond : d.bufData.length - d.n ≤ p.data.length ∧ d.err = none
    · by_cases hA : d.n = 0 ∧ align p d.blockSize = 0
      · by_cases hmul : p.data.length % d.blockSize = 0
        · rcases hfw : fWrite o p.data with ⟨⟨nw, e⟩, o2, ev⟩
          obtain ⟨hle, hev⟩ := fWrite_spec _ _ _ _ _ _ hfw
          rw [writeAux_A1 fuel d p o o2 nn nw e ev hcond.2 hcond.1 hA.1 hA.2 hmul hfw]
          subst hev
          have h2 := ih { d with err := e } (p.dropP nw) o2 (nn + nw)
          simp only [consTrace, acceptedCount] at h2 ⊢
          omega
        · rcases hfw : fWrite o (p.data.take (goAndNeg p.data.length d.blockSize))
            with ⟨⟨nl, e⟩, o2, ev⟩
          obtain ⟨hle, hev⟩ := fWrite_spec _ _ _ _ _ _ hfw
          rw [writeAux_A2 fuel d p o o2 nn nl e ev hcond.2 hcond.1 hA.1 hA.2 hmul hfw]
          subst hev
          have h2 := ih { d with err := e, bufData := copyInto d.bufData d.n (p.data.drop (goAndNeg p.data.length d.blockSize)), n := d.n + copyCount d.bufData d.n (p.data.drop (goAndNeg p.data.length d.blockSize)) } (p.dropP (copyCount d.bufData d.n (p.data.drop (goAndNeg p.data.length d.blockSize)) + nl)) o2 (nn + (copyCount d.bufData d.n (p.data.drop (goAndNeg p.data.length d.blockSize)) + nl))
          simp only [consTrace, acceptedCount] at h2 ⊢
          omega
      · rcases hfl : Dio.flush { d with bufData := copyInto d.bufData d.n p.data, n := d.n + copyCount d.bufData d.n p.data } o with ⟨fe, fst, fo, ftr⟩
        have hfc := flush_count { d with bufData := copyInto d.bufData d.n p.data, n := d.n + copyCount d.bufData d.n p.data } o
        rw [hfl] at hfc
        simp only at hfc
        cases fe with
        | some e =>
          rw [writeAux_B_err fuel d p o nn ⟨some e, fst, fo, ftr⟩ e hcond.2 hcond.1 hA hfl rfl]
          simp only
          omega
        | none =>
          rw [writeAux_B_ok fuel d p o nn ⟨none, fst, fo, ftr⟩ hcond.2 hcond.1 hA hfl rfl]
          have h2 := ih fst (p.dropP (copyCount d.bufData d.n p.data)) fo
            (nn + copyCount d.bufData d.n p.data)
          simp only [appendTrace, acceptedCount_append] at h2 ⊢
          omega
    · rcases he : d.err with _ | e
      · have hlt : p.data.length < d.bufData.length - d.n := by
          rcases Decidable.not_and_iff_or_not.mp hcond with h | h
          · omega
          · exact absurd he h
        rw [writeAux_exit fuel d p o nn he hlt]
        simp [acceptedCount]
        omega
      · rw [writeAux_errExit fuel d p o nn e he]
        simp [acceptedCount]
        omega

theorem writeAux_onlyWrites (fuel : Nat) : ∀ (d : Dio) (p : Ptr) (o : Oracle) (nn : Nat),
    onlyWrites (writeAux fuel d p o nn).trace := by
  induction fuel with
  | zero => intro d p o nn; intro ev hev; simp [writeAux] at hev
  | succ fuel ih =>
    intro d p o nn
    by_cases hcond : d.bufData.length - d.n ≤ p.data.length ∧ d.err = none
    · by_cases hA : d.n = 0 ∧ align p d.blockSize = 0
      · by_cases hmul : p.data.length % d.blockSize = 0
        · rcases hfw : fWrite o p.data with ⟨⟨nw, e⟩, o2, ev⟩
          obtain ⟨hle, hev⟩ := fWrite_spec _ _ _ _ _ _ hfw
          rw [writeAux_A1 fuel d p o o2 nn nw e ev hcond.2 hcond.1 hA.1 hA.2 hmul hfw]
          intro x hx
          simp [consTrace] at hx
          rcases hx with hx | hx
          · exact ⟨_, _, _, by rw [hx, hev]⟩
          · exact ih _ _ _ _ x hx
        · rcases hfw : fWrite o (p.data.take (goAndNeg p.data.length d.blockSize))
            with ⟨⟨nl, e⟩, o2, ev⟩
          obtain ⟨hle, hev⟩ := fWrite_spec _ _ _ _ _ _ hfw
          rw [writeAux_A2 fuel d p o o2 nn nl e ev hcond.2 hcond.1 hA.1 hA.2 hmul hfw]
          intro x hx
          simp [consTrace] at hx
          rcases hx with hx | hx
          · exact ⟨_, _, _, by rw [hx, hev]⟩
          · exact ih _ _ _ _ x hx
      · rcases hfl : Dio.flush { d with bufData := copyInto d.bufData d.n p.data, n := d.n + copyCount d.bufData d.n p.data } o with ⟨fe, fst, fo, ftr⟩
        have hfw := flush_onlyWrites { d with bufData := copyInto d.bufData d.n p.data, n := d.n + copyCount d.bufData d.n p.data } o
        rw [hfl] at hfw
        simp only at hfw
        cases fe with
        | some e =>
          rw [writeAux_B_err fuel d p o nn ⟨some e, fst, fo, ftr⟩ e hcond.2 hcond.1 hA hfl rfl]
          exact hfw
        | none =>
          rw [writeAux_B_ok fuel d p o nn ⟨none, fst, fo, ftr⟩ hcond.2 hcond.1 hA hfl rfl]
          intro x hx
          simp [appendTrace] at hx
          rcases hx with hx | hx
          · exact hfw x hx
          · exact ih _ _ _ _ x hx
    · rcases he : d.err with _ | e
      · have hlt : p.data.length < d.bufData.length - d.n := by
          rcases Decidable.not_and_iff_or_not.mp hcond with h | h
          · omega
          · exact absurd he h
        rw [writeAux_exit fuel d p o nn he hlt]
        intro ev hev; simp at hev
      · rw [writeAux_errExit fuel d p o nn e he]
        intro ev hev; simp at hev

theorem writeAux_oracle_sub (fuel : Nat) : ∀ (d : Dio) (p : Ptr) (o : Oracle) (nn : Nat),
    ∀ r ∈ (writeAux fuel d p o nn).oracle.writes, r ∈ o.writes := by
  induction fuel with
  | zero => intro d p o nn r hr; exact hr
  | succ fuel ih =>
    intro d p o nn
    by_cases hcond : d.bufData.length - d.n ≤ p.data.length ∧ d.err = none
    · by_cases hA : d.n = 0 ∧ align p d.blockSize = 0
      · by_cases hmul : p.data.length % d.blockSize = 0
        · rcases hfw : fWrite o p.data with ⟨⟨nw, e⟩, o2, ev⟩
          rw [writeAux_A1 fuel d p o o2 nn nw e ev hcond.2 hcond.1 hA.1 hA.2 hmul hfw]
          intro r hr
          simp only [consTrace] at hr
          have h2 := fWrite_oracle_sub o p.data
          rw [hfw] at h2
          exact h2 r (ih _ _ _ _ r hr)
        · rcases hfw : fWrite o (p.data.take (goAndNeg p.data.length d.blockSize))
            with ⟨⟨nl, e⟩, o2, ev⟩
          rw [writeAux_A2 fuel d p o o2 nn nl e ev hcond.2 hcond.1 hA.1 hA.2 hmul hfw]
          intro r hr
          simp only [consTrace] at hr
          have h2 := fWrite_oracle_sub o (p.data.take (goAndNeg p.data.length d.blockSize))
          rw [hfw] at h2
          exact h2 r (ih _ _ _ _ r hr)
      · rcases hfl : Dio.flush { d with bufData := copyInto d.bufData d.n p.data, n := d.n + copyCount d.bufData d.n p.data } o with ⟨fe, fst, fo, ftr⟩
        have hsub := flush_oracle_sub { d with bufData := copyInto d.bufData d.n p.data, n := d.n + copyCount d.bufData d.n p.data } o
        rw [hfl] at hsub
        simp only at hsub
        cases fe with
        | some e =>
          rw [writeAux_B_err fuel d p o nn ⟨some e, fst, fo, ftr⟩ e hcond.2 hcond.1 hA hfl rfl]
          exact hsub
        | none =>
          rw [writeAux_B_ok fuel d p o nn ⟨none, fst, fo, ftr⟩ hcond.2 hcond.1 hA hfl rfl]
          intro r hr
          simp only [appendTrace] at hr
          exact hsub r (ih _ _ _ _ r hr)
    · rcases he : d.err with _ | e
      · have hlt : p.data.length < d.bufData.length - d.n := by
          rcases Decidable.not_and_iff_or_not.mp hcond with h | h
          · omega
          · exact absurd he h
        rw [writeAux_exit fuel d p o nn he hlt]
        intro r hr; exact hr
      · rw [writeAux_errExit fuel d p o nn e he]
        intro r hr; exact hr

theorem writeAux_frame (fuel : Nat) : ∀ (d : Dio) (p : Ptr) (o : Oracle) (nn : Nat),
    d.n ≤ d.bufData.length →
    (writeAux fuel d p o nn).state.bufData.length = d.bufData.length ∧
    (writeAux fuel d p o nn).state.n ≤ (writeAux fuel d p o nn).state.bufData.length ∧
    (writeAux fuel d p o nn).state.blockSize = d.blockSize ∧
    (writeAux fuel d p o nn).state.isClosed = d.isClosed := by
  induction fuel with
  | zero => intro d p o nn hn; simp [writeAux]; omega
  | succ fuel ih =>
    intro d p o nn hn
    by_cases hcond : d.bufData.length - d.n ≤ p.data.length ∧ d.err = none
    · by_cases hA : d.n = 0 ∧ align p d.blockSize = 0
      · by_cases hmul : p.data.length % d.blockSize = 0
        · rcases hfw : fWrite o p.data with ⟨⟨nw, e⟩, o2, ev⟩
          rw [writeAux_A1 fuel d p o o2 nn nw e ev hcond.2 hcond.1 hA.1 hA.2 hmul hfw]
          have h2 := ih { d with err := e } (p.dropP nw) o2 (nn + nw) (by simpa using hn)
          simpa [consTrace] using h2
        · rcases hfw : fWrite o (p.data.take (goAndNeg p.data.length d.blockSize))
            with ⟨⟨nl, e⟩, o2, ev⟩
          rw [writeAux_A2 fuel d p o o2 nn nl e ev hcond.2 hcond.1 hA.1 hA.2 hmul hfw]
          have hculen := copyInto_length d.bufData d.n
            (p.data.drop (goAndNeg p.data.length d.blockSize)) hn
          have hccle : d.n + copyCount d.bufData d.n
              (p.data.drop (goAndNeg p.data.length d.blockSize)) ≤ d.bufData.length := by
            simp [copyCount]; omega
          have h2 := ih { d with err := e, bufData := copyInto d.bufData d.n (p.data.drop (goAndNeg p.data.length d.blockSize)), n := d.n + copyCount d.bufData d.n (p.data.drop (goAndNeg p.data.length d.blockSize)) } (p.dropP (copyCount d.bufData d.n (p.data.drop (goAndNeg p.data.length d.blockSize)) + nl)) o2 (nn + (copyCount d.bufData d.n (p.data.drop (goAndNeg p.data.length d.blockSize)) + nl)) (by simpa [hculen] using hccle)
          simp only [consTrace] at h2 ⊢
          simpa [hculen] using h2
      · rcases hfl : Dio.flush { d with bufData := copyInto d.bufData d.n p.data, n := d.n + copyCount d.bufData d.n p.data } o with ⟨fe, fst, fo, ftr⟩
        have hculen := copyInto_length d.bufData d.n p.data hn
        have hccle : d.n + copyCount d.bufData d.n p.data ≤ d.bufData.length := by
          simp [copyCount]; omega
        have hff := flush_frame { d with bufData := copyInto d.bufData d.n p.data, n := d.n + copyCount d.bufData d.n p.data } o (by simpa [hculen] using hccle)
        rw [hfl] at hff
        simp only [hculen] at hff
        cases fe with
        | some e =>
          rw [writeAux_B_err fuel d p o nn ⟨some e, fst, fo, ftr⟩ e hcond.2 hcond.1 hA hfl rfl]
          simp only
          refine ⟨hff.1, ?_, hff.2.2.1, hff.2.2.2⟩
          omega
        | none =>
          rw [writeAux_B_ok fuel d p o nn ⟨none, fst, fo, ftr⟩ hcond.2 hcond.1 hA hfl rfl]
          have h2 := ih fst (p.dropP (copyCount d.bufData d.n p.data)) fo
            (nn + copyCount d.bufData d.n p.data) (by omega)
          simp only [appendTrace] at h2 ⊢
          constructor
          · rw [h2.1, hff.1]
          · refine ⟨h2.2.1, ?_, ?_⟩
            · rw [h2.2.2.1, hff.2.2.1]
            · rw [h2.2.2.2, hff.2.2.2]
    · rcases he : d.err with _ | e
      · have hlt : p.data.length < d.bufData.length - d.n := by
          rcases Decidable.not_and_iff_or_not.mp hcond with h | h
          · omega
          · exact absurd he h
        rw [writeAux_exit fuel d p o nn he hlt]
        have hculen := copyInto_length d.bufData d.n p.data hn
        refine ⟨hculen, ?_, rfl, rfl⟩
        simp only [hculen]
        simp [copyCount]
        omega
      · rw [writeAux_errExit fuel d p o nn e he]
        exact ⟨rfl, by simpa, rfl, rfl⟩

theorem writeAux_content (fuel : Nat) : ∀ (d : Dio) (p : Ptr) (nn : Nat),
    d.err = none → d.isClosed = false → 0 < d.bufData.length → d.n ≤ d.bufData.length →
    2 * p.data.length + (if d.n = d.bufData.length then 1 else 0) < fuel →
    (writeAux fuel d p successOracle nn).nn = nn + p.data.length ∧
    (writeAux fuel d p successOracle nn).err = none ∧
    (writeAux fuel d p successOracle nn).oracle = successOracle ∧
    (writeAux fuel d p successOracle nn).state.err = none ∧
    acceptedBytes (writeAux fuel d p successOracle nn).trace ++
      (writeAux fuel d p successOracle nn).state.bufData.take
        (writeAux fuel d p successOracle nn).state.n =
      d.bufData.take d.n ++ p.data := by
  induction fuel with
  | zero => intro d p nn he hc hcap hn hfuel; omega
  | succ fuel ih =>
    intro d p nn he hc hcap hn hfuel
    have hf1 : 2 * p.data.length < fuel + 1 := by
      split at hfuel <;> omega
    have hf2 : d.n = d.bufData.length → 2 * p.data.length + 1 < fuel + 1 := by
      intro hh; rw [if_pos hh] at hfuel; omega
    by_cases hcond : d.bufData.length - d.n ≤ p.data.length ∧ d.err = none
    · by_cases hA : d.n = 0 ∧ align p d.blockSize = 0
      · have hlen : 0 < p.data.length := by omega
        by_cases hmul : p.data.length % d.blockSize = 0
        · -- Case A1
          rw [writeAux_A1 fuel d p successOracle successOracle nn p.data.length none
            (.write p.data p.data.length none) hcond.2 hcond.1 hA.1 hA.2 hmul
            (fWrite_success _)]
          have h2 := ih { d with err := none } (p.dropP p.data.length) (nn + p.data.length)
            rfl hc hcap (by simpa [hA.1] using hn)
            (by simp only [Ptr.dropP, List.drop_length, List.length_nil]
                split <;> omega)
          simp only [consTrace, Ptr.dropP, List.drop_length] at h2 ⊢
          obtain ⟨g1, g2, g3, g4, g5⟩ := h2
          refine ⟨by rw [g1]; simp, g2, g3, g4, ?_⟩
          simp only [acceptedBytes]
          rw [List.take_length]
          have h0 := g5.trans
            (show d.bufData.take d.n ++ ([] : List Nat) = [] by rw [hA.1]; simp)
          obtain ⟨hemp1, hemp2⟩ := List.append_eq_nil.mp h0
          rw [List.append_assoc, hemp1, hemp2, hA.1]
          simp
        · -- Case A2
          rw [writeAux_A2 fuel d p successOracle successOracle nn
            (p.data.take (goAndNeg p.data.length d.blockSize)).length none
            (.write (p.data.take (goAndNeg p.data.length d.blockSize))
              (p.data.take (goAndNeg p.data.length d.blockSize)).length none)
            hcond.2 hcond.1 hA.1 hA.2 hmul (fWrite_success _)]
          have hculen := copyInto_length d.bufData d.n
            (p.data.drop (goAndNeg p.data.length d.blockSize)) hn
          have hnl : (p.data.take (goAndNeg p.data.length d.blockSize)).length =
              min (goAndNeg p.data.length d.blockSize) p.data.length := by simp
          have hcc : copyCount d.bufData d.n
              (p.data.drop (goAndNeg p.data.length d.blockSize)) =
              min (d.bufData.length - d.n)
                (p.data.length - goAndNeg p.data.length d.blockSize) := by
            simp [copyCount]
          have hpos : 1 ≤ copyCount d.bufData d.n
                (p.data.drop (goAndNeg p.data.length d.blockSize)) +
              (p.data.take (goAndNeg p.data.length d.blockSize)).length := by
            rw [hcc, hnl]
            rcases Nat.eq_zero_or_pos (goAndNeg p.data.length d.blockSize) with h0 | h0
            · rw [h0]; simp only [Nat.min_zero, Nat.zero_min, Nat.sub_zero, Nat.zero_add]
              omega
            · omega
          have h2 := ih { d with err := none, bufData := copyInto d.bufData d.n (p.data.drop (goAndNeg p.data.length d.blockSize)), n := d.n + copyCount d.bufData d.n (p.data.drop (goAndNeg p.data.length d.blockSize)) } (p.dropP (copyCount d.bufData d.n (p.data.drop (goAndNeg p.data.length d.blockSize)) + (p.data.take (goAndNeg p.data.length d.blockSize)).length)) (nn + (copyCount d.bufData d.n (p.data.drop (goAndNeg p.data.length d.blockSize)) + (p.data.take (goAndNeg p.data.length d.blockSize)).length)) rfl hc (by simpa [hculen]) (by simp only [hculen]; rw [hcc]; omega) ?hfuelA2
          case hfuelA2 =>
            simp only [Ptr.dropP, List.length_drop]
            split <;> omega
          simp only [consTrace, Ptr.dropP] at h2 ⊢
          obtain ⟨g1, g2, g3, g4, g5⟩ := h2
          refine ⟨by rw [g1]; rw [hcc, hnl]; simp; omega, g2, g3, g4, ?_⟩
          simp only [acceptedBytes, List.take_length]
          rw [List.append_assoc, g5, hA.1]
          rw [copyInto_take _ _ _ (by omega)]
          simp only [List.take_zero, List.nil_append]
          exact split_concat p.data (goAndNeg p.data.length d.blockSize) _
      · -- Case B
        have hculen := copyInto_length d.bufData d.n p.data hn
        have hmidn : d.n + copyCount d.bufData d.n p.data ≤ d.bufData.length := by
          simp [copyCount]; omega
        have hmidpos : d.n + copyCount d.bufData d.n p.data ≠ 0 := by
          simp only [copyCount]
          omega
        have hfl := flush_success_pos
          { d with bufData := copyInto d.bufData d.n p.data, n := d.n + copyCount d.bufData d.n p.data }
          (by simpa using hcond.2) (by simpa using hmidpos) (by simpa [hculen] using hmidn)
        have hfl2 : Dio.flush { d with bufData := copyInto d.bufData d.n p.data, n := d.n + copyCount d.bufData d.n p.data } successOracle = ⟨none, { d with bufData := copyInto d.bufData d.n p.data, n := 0 }, successOracle, [.write ((copyInto d.bufData d.n p.data).take (d.n + copyCount d.bufData d.n p.data)) (d.n + copyCount d.bufData d.n p.data) none]⟩ := by rw [hfl]
        rw [writeAux_B_ok fuel d p successOracle nn _ hcond.2 hcond.1 hA hfl2 rfl]
        have h2 := ih { d with bufData := copyInto d.bufData d.n p.data, n := 0 } (p.dropP (copyCount d.bufData d.n p.data)) (nn + copyCount d.bufData d.n p.data) hcond.2 hc (by simpa [hculen]) (by simp) ?hfuelB
        case hfuelB =>
          simp only [Ptr.dropP, List.length_drop]
          rw [if_neg (by simp only [hculen]; omega)]
          by_cases hk0 : copyCount d.bufData d.n p.data = 0
          · have hdn : d.n = d.bufData.length := by
              simp only [copyCount] at hk0
              omega
            have := hf2 hdn
            omega
          · omega
        simp only [appendTrace, Ptr.dropP] at h2 ⊢
        obtain ⟨g1, g2, g3, g4, g5⟩ := h2
        refine ⟨by rw [g1]; simp only [List.length_drop]; omega, g2, g3, g4, ?_⟩
        rw [acceptedBytes_append, List.append_assoc, g5]
        simp only [acceptedBytes, List.take_zero, List.nil_append]
        have hreq : ((copyInto d.bufData d.n p.data).take
            (d.n + copyCount d.bufData d.n p.data)).take
            (d.n + copyCount d.bufData d.n p.data) = (copyInto d.bufData d.n p.data).take
            (d.n + copyCount d.bufData d.n p.data) := by
          rw [List.take_take]
          simp
        rw [List.append_nil, hreq, copyInto_take _ _ _ hn, List.append_assoc]
        congr 1
        rw [take_min p.data (copyCount d.bufData d.n p.data)]
        rw [drop_min p.data (copyCount d.bufData d.n p.data)]
        exact List.take_append_drop _ _
    · -- loop exit
      have hlt : p.data.length < d.bufData.length - d.n := by
        rcases Decidable.not_and_iff_or_not.mp hcond with h | h
        · omega
        · exact absurd he h
      rw [writeAux_exit fuel d p successOracle nn he hlt]
      have hk : copyCount d.bufData d.n p.data = p.data.length := by
        simp only [copyCount]
        omega
      refine ⟨by rw [hk], rfl, rfl, by simpa using he, ?_⟩
      simp only [acceptedBytes, List.nil_append]
      rw [copyInto_take _ _ _ hn, hk]
      simp

theorem write_onlyWrites (d : Dio) (p : Ptr) (o : Oracle) :
    onlyWrites (d.Write p o).trace := by
  unfold Dio.Write
  split
  · intro ev hev; simp at hev
  · exact writeAux_onlyWrites _ _ _ _ _

theorem write_oracle_sub (d : Dio) (p : Ptr) (o : Oracle) :
    ∀ r ∈ (d.Write p o).oracle.writes, r ∈ o.writes := by
  unfold Dio.Write
  split
  · intro r hr; exact hr
  · exact writeAux_oracle_sub _ _ _ _ _

theorem write_frame (d : Dio) (p : Ptr) (o : Oracle) (hn : d.n ≤ d.bufData.length) :
    (d.Write p o).state.bufData.length = d.bufData.length ∧
    (d.Write p o).state.n ≤ (d.Write p o).state.bufData.length ∧
    (d.Write p o).state.blockSize = d.blockSize ∧
    (d.Write p o).state.isClosed = d.isClosed := by
  unfold Dio.Write
  split
  · exact ⟨rfl, by simpa, rfl, rfl⟩
  · exact writeAux_frame _ _ _ _ _ hn

theorem write_content (d : Dio) (p : Ptr)
    (he : d.err = none) (hc : d.isClosed = false) (hcap : 0 < d.bufData.length)
    (hn : d.n ≤ d.bufData.length) :
    (d.Write p successOracle).nn = p.data.length ∧
    (d.Write p successOracle).err = none ∧
    (d.Write p successOracle).oracle = successOracle ∧
    (d.Write p successOracle).state.err = none ∧
    acceptedBytes (d.Write p successOracle).trace ++
      (d.Write p successOracle).state.bufData.take (d.Write p successOracle).state.n =
      d.bufData.take d.n ++ p.data := by
  unfold Dio.Write
  rw [hc]
  simp only [Bool.false_eq_true, if_false]
  have h := writeAux_content (2 * p.data.length + 2) d p 0 he hc hcap hn
    (by split <;> omega)
  simpa using h

theorem closePhase2_disabled (d : Dio) (o : Oracle)
    (hbs : 0 < d.blockSize) (hn : d.n < d.blockSize) :
    disabledBytesFrom true (closePhase2 d o).trace < d.blockSize := by
  unfold closePhase2
  split
  · simpa [disabledBytesFrom]
  · split
    case h_1 e1 o1 ev1 heq =>
      have hev1 := fSetDirect_spec _ _ _ _ _ heq
      subst hev1
      simpa [disabledBytesFrom]
    case h_2 o1 ev1 heq =>
      have hev1 := fSetDirect_spec _ _ _ _ _ heq
      subst hev1
      rcases hw : fWrite o1 (d.bufData.take d.n) with ⟨⟨nw, e2⟩, o2, ev2⟩
      obtain ⟨hle, hev2⟩ := fWrite_spec _ _ _ _ _ _ hw
      subst hev2
      rcases hs3 : fSetDirect o2 true with ⟨e3, o3, ev3⟩
      have hev3 := fSetDirect_spec _ _ _ _ _ hs3
      subst hev3
      have hreq : (d.bufData.take d.n).length ≤ d.n := by simp
      cases e2 with
      | some e =>
        dsimp only
        rw [hs3]
        dsimp only
        cases e3 <;> simp [disabledBytesFrom] <;> omega
      | none =>
        dsimp only
        rw [hs3]
        dsimp only
        rcases hs4 : fSync o3 with ⟨e4, o4, ev4⟩
        have hev4 := fSync_spec _ _ _ _ hs4
        subst hev4
        dsimp only
        cases e3 <;> simp [disabledBytesFrom] <;> omega

theorem close_disabled (d : Dio) (o : Oracle) (hbs : 0 < d.blockSize)
    (hn : d.n ≤ d.bufData.length) (ho : o.Honest) :
    disabledBytesFrom true (d.Close o).trace < d.blockSize := by
  have hmod : d.n % d.blockSize ≤ d.n := Nat.mod_le _ _
  have hm2 : d.n % d.blockSize < d.blockSize := Nat.mod_lt _ hbs
  unfold Dio.Close
  split
  · simpa [disabledBytesFrom]
  · dsimp only
    split
    · simpa [disabledBytesFrom]
    · split
      · rcases hw : fWrite o (d.bufData.take (d.n - d.n % d.blockSize)) with ⟨⟨nw, e⟩, o2, ev⟩
        obtain ⟨hle, hev⟩ := fWrite_spec _ _ _ _ _ _ hw
        subst hev
        dsimp only
        cases e with
        | some err => simpa [disabledBytesFrom]
        | none =>
          have hnw : nw = (d.bufData.take (d.n - d.n % d.blockSize)).length :=
            fWrite_honest _ _ _ _ _ _ ho hw rfl
          have hnw2 : nw = d.n - d.n % d.blockSize := by
            rw [hnw]; simp; omega
          have h2 := closePhase2_disabled
            { d with isClosed := true,
                     bufData := (d.bufData.drop nw).take (d.n - nw) ++ d.bufData.drop (d.n - nw),
                     n := d.n - nw } o2 (by simpa) (by show d.n - nw < d.blockSize; rw [hnw2]; omega)
          simp only [consTrace, disabledBytesFrom] at h2 ⊢
          simpa using h2
      · have hlt : d.n < d.blockSize := by
          rename_i h0 hns
          simp at hns
          omega
        have h2 := closePhase2_disabled { d with isClosed := true } o (by simpa) (by simpa)
        exact h2

theorem closePhase2_content (d : Dio) :
    acceptedBytes (closePhase2 d successOracle).trace = d.bufData.take d.n ∧
    (closePhase2 d successOracle).err = none := by
  unfold closePhase2
  split
  · simp_all [acceptedBytes]
  · rw [fSetDirect_success]
    dsimp only
    rw [fWrite_success]
    dsimp only
    rw [fSetDirect_success]
    dsimp only
    rw [fSync_success]
    dsimp only
    simp [acceptedBytes]

theorem close_content (d : Dio) (hc : d.isClosed = false) (hn : d.n ≤ d.bufData.length) :
    acceptedBytes (d.Close successOracle).trace = d.bufData.take d.n ∧
    (d.Close successOracle).err = none := by
  have hmod : d.n % d.blockSize ≤ d.n := Nat.mod_le _ _
  unfold Dio.Close
  rw [hc]
  simp only [Bool.false_eq_true, if_false]
  split
  · simp_all [acceptedBytes]
  · split
    · rw [fWrite_success]
      dsimp only
      have hreq : (d.bufData.take (d.n - d.n % d.blockSize)).length =
          d.n - d.n % d.blockSize := by simp; omega
      rw [hreq]
      have h2 := closePhase2_content { d with isClosed := true, bufData := (d.bufData.drop (d.n - d.n % d.blockSize)).take (d.n - (d.n - d.n % d.blockSize)) ++ d.bufData.drop (d.n - (d.n - d.n % d.blockSize)), n := d.n - (d.n - d.n % d.blockSize) }
      simp only at h2
      refine ⟨?_, h2.2⟩
      simp only [acceptedBytes]
      rw [List.take_take, Nat.min_self, h2.1]
      rw [List.take_append_of_le_length (by simp; omega)]
      rw [List.take_take, Nat.min_self]
      rw [← List.take_add]
      congr 1
      omega
    · have h2 := closePhase2_content { d with isClosed := true }
      simpa using h2

theorem writerRun_nil (d : Dio) (o : Oracle) : writerRun d [] o = d.Close o := by
  unfold writerRun runWrites
  simp

theorem writerRun_cons (d : Dio) (p : Ptr) (ps : List Ptr) (o : Oracle) :
    writerRun d (p :: ps) o =
      { writerRun (d.Write p o).state ps (d.Write p o).oracle with
        trace := (d.Write p o).trace ++
          (writerRun (d.Write p o).state ps (d.Write p o).oracle).trace } := by
  unfold writerRun
  conv_lhs => unfold runWrites
  dsimp only
  rw [List.append_assoc]

theorem writerRun_content (ps : List Ptr) : ∀ (d : Dio),
    d.err = none → d.isClosed = false → 0 < d.bufData.length → d.n ≤ d.bufData.length →
    acceptedBytes (writerRun d ps successOracle).trace =
      d.bufData.take d.n ++ (ps.map Ptr.data).flatten ∧
    (writerRun d ps successOracle).err = none := by
  induction ps with
  | nil =>
    intro d he hc hcap hn
    rw [writerRun_nil]
    have h := close_content d hc hn
    simpa using h
  | cons p ps ih =>
    intro d he hc hcap hn
    rw [writerRun_cons]
    have hw := write_content d p he hc hcap hn
    have hfr := write_frame d p successOracle hn
    have h2 := ih (d.Write p successOracle).state hw.2.2.2.1
      (by rw [hfr.2.2.2]; exact hc) (by rw [hfr.1]; exact hcap) hfr.2.1
    rw [hw.2.2.1]
    simp only
    refine ⟨?_, h2.2⟩
    rw [acceptedBytes_append, h2.1, List.map_cons, List.flatten_cons,
      ← List.append_assoc, hw.2.2.2.2, List.append_assoc]

/-! Claim theorems. -/

/-- C1: on a freshly constructed open writer (empty buffer, no sticky error,
nonempty buffer capacity), for every partition of an input into a sequence of
Write calls followed by Close, with a descriptor that accepts every write in
full, the concatenation of the bytes accepted by the descriptor over the whole
run equals the concatenation of the input chunks, regardless of chunk
boundaries and alignment, and the run reports no error. -/
theorem c1_round_trip (d : Dio) (ps : List Ptr)
    (hc : d.isClosed = false) (he : d.err = none) (hn : d.n = 0)
    (hcap : 0 < d.bufData.length) :
    acceptedBytes (writerRun d ps successOracle).trace = (ps.map Ptr.data).flatten ∧
    (writerRun d ps successOracle).err = none := by
  have h := writerRun_content ps d he hc hcap (by omega)
  rw [hn] at h
  simpa using h

/-- Witness for C1 at a concrete writer and a concrete three-chunk partition. -/
theorem c1_round_trip_witness :
    acceptedBytes (writerRun ⟨[0, 0, 0, 0], 0, none, 2, false⟩
        [⟨1, [1, 2, 3]⟩, ⟨0, [4, 5, 6, 7, 8, 9]⟩, ⟨3, [10]⟩] successOracle).trace =
      (([⟨1, [1, 2, 3]⟩, ⟨0, [4, 5, 6, 7, 8, 9]⟩, ⟨3, [10]⟩] : List Ptr).map Ptr.data).flatten ∧
    (writerRun ⟨[0, 0, 0, 0], 0, none, 2, false⟩
        [⟨1, [1, 2, 3]⟩, ⟨0, [4, 5, 6, 7, 8, 9]⟩, ⟨3, [10]⟩] successOracle).err = none :=
  c1_round_trip ⟨[0, 0, 0, 0], 0, none, 2, false⟩
    [⟨1, [1, 2, 3]⟩, ⟨0, [4, 5, 6, 7, 8, 9]⟩, ⟨3, [10]⟩] rfl rfl rfl (by decide)

/-- C2 counterexample: with blockSize 2, an empty buffer and a block-aligned
input of length 2 (a positive multiple of the block size) smaller than the
buffer capacity, Write hands nothing to the descriptor (empty trace) and
instead copies both bytes into the internal buffer, contradicting the claim
that every such input is written directly with no buffer copy. -/
theorem c2_counterexample :
    (Dio.Write ⟨[0, 0, 0, 0], 0, none, 2, false⟩ ⟨0, [5, 6]⟩ successOracle).trace = [] ∧
    (Dio.Write ⟨[0, 0, 0, 0], 0, none, 2, false⟩ ⟨0, [5, 6]⟩ successOracle).state.n = 2 := by
  decide

/-- C2 amended: the zero-copy fast path additionally requires the input length
to be at least the buffer's free space (Available, which equals the capacity
when the buffer is empty); under that extra hypothesis a single Write on an
empty buffer with aligned start and a positive multiple of blockSize as its
length is handed to the descriptor in exactly one write, the internal buffer
is untouched and stays empty. -/
theorem c2_zero_copy_amended (d : Dio) (p : Ptr)
    (hc : d.isClosed = false) (he : d.err = none) (hn : d.n = 0)
    (hbs : 0 < d.blockSize) (hcap : 0 < d.bufData.length)
    (hlen : d.bufData.length ≤ p.data.length)
    (hmul : p.data.length % d.blockSize = 0)
    (hpos : 0 < p.data.length)
    (hal : p.addr % d.blockSize = 0) :
    d.Write p successOracle =
      ⟨p.data.length, none, d, successOracle, [Ev.write p.data p.data.length none]⟩ := by
  obtain ⟨buf, n, err, bs, cl⟩ := d
  simp only at hc he hn hbs hcap hlen hmul hal
  subst hc he hn
  unfold Dio.Write
  simp only [Bool.false_eq_true, if_false]
  unfold writeAux
  simp only [fWrite, align, Ptr.dropP, successOracle, Nat.sub_zero]
  rw [if_pos (by exact ⟨hlen, trivial⟩),
      if_pos (by simp [Nat.pos_iff_ne_zero.mp hbs, Nat.pos_iff_ne_zero.mp hpos, hal]),
      if_pos hmul]
  unfold writeAux
  simp [copyCount, copyInto, Nat.pos_iff_ne_zero.mp hcap, List.drop_length]

/-- Witness for the amended C2 at a concrete writer and input. -/
theorem c2_zero_copy_amended_witness :
    Dio.Write ⟨[0, 0, 0, 0], 0, none, 2, false⟩ ⟨0, [5, 6, 7, 8]⟩ successOracle =
      ⟨4, none, ⟨[0, 0, 0, 0], 0, none, 2, false⟩, successOracle,
        [Ev.write [5, 6, 7, 8] 4 none]⟩ :=
  c2_zero_copy_amended ⟨[0, 0, 0, 0], 0, none, 2, false⟩ ⟨0, [5, 6, 7, 8]⟩
    rfl rfl rfl (by decide) (by decide) (by decide) (by decide) (by decide) (by decide)

/-- C3: for any writer state with a positive block size and a fill length
within capacity, across any sequence of Write calls followed by Close, against
any descriptor honouring the io.Writer contract (short writes carry an error),
the total number of bytes handed to the descriptor's write operation while
cache-bypass mode is disabled is strictly less than blockSize. -/
theorem c3_bounded_tail (d : Dio) (ps : List Ptr) (o : Oracle)
    (hbs : 0 < d.blockSize) (hn : d.n ≤ d.bufData.length) (ho : o.Honest) :
    disabledBytesFrom true (writerRun d ps o).trace < d.blockSize := by
  induction ps generalizing d o with
  | nil =>
    rw [writerRun_nil]
    exact close_disabled d o hbs hn ho
  | cons p ps ih =>
    rw [writerRun_cons]
    simp only [disabledBytesFrom_append]
    have hw := onlyWrites_disabled true (d.Write p o).trace (write_onlyWrites d p o)
    have hfr := write_frame d p o hn
    have hho : (d.Write p o).oracle.Honest := by
      intro r hr
      exact ho r (write_oracle_sub d p o r hr)
    have h2 := ih (d.Write p o).state (d.Write p o).oracle (by omega) hfr.2.1 hho
    rw [hw.1, hw.2]
    omega

/-- Witness for C3 at a concrete writer, one Write call and the all-success
descriptor. -/
theorem c3_bounded_tail_witness :
    disabledBytesFrom true (writerRun ⟨[0, 0, 0, 0], 0, none, 2, false⟩
      [⟨1, [1, 2, 3]⟩] successOracle).trace < 2 :=
  c3_bounded_tail ⟨[0, 0, 0, 0], 0, none, 2, false⟩ [⟨1, [1, 2, 3]⟩] successOracle
    (by decide) (by decide) (by decide)

/-- C4 counterexample: at a concrete input where the kernel Direct-I/O
alignment query succeeds with the nonzero value 8192 (as DIOMemAlign and the
spec-ordered resolver specResolveAlignment both report), NewSize still
resolves the writer's blockSize to 4096, the clamped statfs value: the code's
resolution never consults the kernel query. -/
theorem c4_counterexample :
    DIOMemAlign (.ok true 8192) = .ok 8192 ∧
    specResolveAlignment (.ok true 8192) false 4096 = .ok 8192 ∧
    (∃ d, NewSize false 4096 16384 0 = .ok d ∧ d.blockSize = 4096) ∧
    (4096 : Nat) ≠ 8192 := by
  refine ⟨rfl, rfl, ?_, by decide⟩
  obtain ⟨d, h, hbs, -⟩ := newSize_ok false 4096 16384 0
  exact ⟨d, h, hbs⟩

/-- C4 amended: block-size resolution uses only the statfs-based fallback with
its clamping heuristic; NewSize always succeeds (given the assumed open/alloc
capabilities) and its blockSize equals GetBestAlignment of the statfs outcome,
which is 4096 whenever statfs fails or reports less than 4096 and the reported
value otherwise. The Direct-I/O alignment query DIOMemAlign is never consulted. -/
theorem c4_resolution_amended (se : Bool) (b s : Int) (a : Nat) :
    ∃ d, NewSize se b s a = .ok d ∧
      d.blockSize = (GetBestAlignment se b).toNat ∧
      GetBestAlignment se b = if se = true ∨ b < 4096 then 4096 else b := by
  obtain ⟨d, h, hbs, -⟩ := newSize_ok se b s a
  exact ⟨d, h, hbs, getBestAlignment_eq se b⟩

/-- C5 counterexample: a statfs failure (an unexpected system failure during
block-size resolution) is not propagated: NewSize succeeds and silently falls
back to blockSize 4096. -/
theorem c5_counterexample :
    ∃ d, NewSize true 4096 16384 0 = .ok d ∧ d.blockSize = 4096 := by
  obtain ⟨d, h, hbs, -⟩ := newSize_ok true 4096 16384 0
  exact ⟨d, h, hbs⟩

/-- C5 amended: block-size resolution absorbs every statfs failure into the
4096 fallback and never propagates an error to the caller; only the statx
helper DIOMemAlign (which resolution does not consult) distinguishes failures,
propagating non-unsupported errors and mapping the unsupported errnos to
ErrFSNoDIOSupport. -/
theorem c5_error_absorption_amended (b s : Int) (a c : Nat) :
    (∃ d, NewSize true b s a = .ok d ∧ d.blockSize = 4096) ∧
    DIOMemAlign (.errOther c) = .error (.sys c) ∧
    DIOMemAlign .errUnsupported = .error .fsNoDIOSupport := by
  refine ⟨?_, rfl, rfl⟩
  obtain ⟨d, h, hbs, -⟩ := newSize_ok true b s a
  exact ⟨d, h, hbs⟩

/-- C6 counterexample: Close does not consult the sticky error: on an open
writer with StickyError set and one staged byte, Close performs descriptor
I/O (a write of the staged byte) and returns success instead of
short-circuiting on the latched error. -/
theorem c6_counterexample :
    (Dio.Close ⟨[7, 7], 1, some (DErr.sys 0), 2, false⟩ successOracle).err = none ∧
    Ev.write [7] 1 none ∈ (Dio.Close ⟨[7, 7], 1, some (DErr.sys 0), 2, false⟩ successOracle).trace := by
  decide

/-- C6 amended: only Write short-circuits on the sticky error: on an open
writer whose err field is set, Write returns (0, the latched error), leaves
the state unchanged and performs no descriptor I/O. Close ignores the latched
error and drains the buffer normally. -/
theorem c6_sticky_write_amended (d : Dio) (p : Ptr) (o : Oracle) (e : DErr)
    (hc : d.isClosed = false) (he : d.err = some e) :
    d.Write p o = ⟨0, some e, d, o, []⟩ := by
  unfold Dio.Write
  rw [hc]
  unfold writeAux
  simp [he]

/-- Witness for the amended C6 at a concrete poisoned writer. -/
theorem c6_sticky_write_amended_witness :
    Dio.Write ⟨[7, 7], 1, some (DErr.sys 0), 2, false⟩ ⟨0, [1, 2, 3]⟩ successOracle =
      ⟨0, some (DErr.sys 0), ⟨[7, 7], 1, some (DErr.sys 0), 2, false⟩, successOracle, []⟩ :=
  c6_sticky_write_amended ⟨[7, 7], 1, some (DErr.sys 0), 2, false⟩ ⟨0, [1, 2, 3]⟩
    successOracle (DErr.sys 0) rfl rfl

/-- C7: Close always leaves the writer with ClosedFlag set, even when its
internal I/O fails (the flag is set before any I/O), and a second Close on an
already-closed writer returns AlreadyClosedError, changes nothing and issues
zero descriptor operations. -/
theorem c7_close_idempotent (d : Dio) (o : Oracle) :
    (d.Close o).state.isClosed = true ∧
    (d.isClosed = true → d.Close o = ⟨some DErr.alreadyClosed, d, o, []⟩) := by
  refine ⟨?_, ?_⟩
  · unfold Dio.Close
    dsimp only
    repeat' split
    all_goals simp_all [closePhase2_isClosed]
  · intro h
    unfold Dio.Close
    simp [h]

/-- Witness for C7 at a concrete already-closed writer. -/
theorem c7_close_idempotent_witness :
    (Dio.Close ⟨[7, 7], 1, none, 2, true⟩ successOracle).state.isClosed = true ∧
    Dio.Close ⟨[7, 7], 1, none, 2, true⟩ successOracle =
      ⟨some DErr.alreadyClosed, ⟨[7, 7], 1, none, 2, true⟩, successOracle, []⟩ :=
  ⟨(c7_close_idempotent ⟨[7, 7], 1, none, 2, true⟩ successOracle).1,
   (c7_close_idempotent ⟨[7, 7], 1, none, 2, true⟩ successOracle).2 rfl⟩

/-- C8 counterexample: with blockSize 2, capacity 2 and an unaligned two-byte
input, a flush that accepts one byte and fails makes Write return count 0 with
the error, yet one byte was accepted by the descriptor and one byte is staged
in the buffer: bytes beyond the first nn = 0 are durable-pending, so
resubmitting from offset nn would duplicate data. -/
theorem c8_counterexample :
    (Dio.Write ⟨[0, 0], 0, none, 2, false⟩ ⟨1, [5, 6]⟩ ⟨[.fail 1 (.sys 0)], [], []⟩).nn = 0 ∧
    (Dio.Write ⟨[0, 0], 0, none, 2, false⟩ ⟨1, [5, 6]⟩ ⟨[.fail 1 (.sys 0)], [], []⟩).err =
      some (DErr.sys 0) ∧
    acceptedBytes
      (Dio.Write ⟨[0, 0], 0, none, 2, false⟩ ⟨1, [5, 6]⟩ ⟨[.fail 1 (.sys 0)], [], []⟩).trace =
      [5] ∧
    (Dio.Write ⟨[0, 0], 0, none, 2, false⟩ ⟨1, [5, 6]⟩
      ⟨[.fail 1 (.sys 0)], [], []⟩).state.n = 1 ∧
    (Dio.Write ⟨[0, 0], 0, none, 2, false⟩ ⟨1, [5, 6]⟩
      ⟨[.fail 1 (.sys 0)], [], []⟩).state.bufData.take 1 = [6] := by
  decide

/-- C8 amended: when Write returns an error with partial count nn, at least nn
bytes of the input are newly durable-pending: the bytes accepted by the
descriptor during the call plus the change in staged bytes total at least nn.
They are not necessarily the leading nn bytes of the input (see the
counterexample), so nn is a lower bound on progress, not a safe resume
offset. -/
theorem c8_partial_count_amended (d : Dio) (p : Ptr) (o : Oracle) (e : DErr)
    (_h : (d.Write p o).err = some e) :
    (d.Write p o).nn + d.n ≤
      acceptedCount (d.Write p o).trace + (d.Write p o).state.n := by
  unfold Dio.Write
  by_cases hc : d.isClosed = true
  · simp [hc, acceptedCount]
  · simp only [hc, if_false, Bool.false_eq_true]
    have := writeAux_count (2 * p.data.length + 2) d p o 0
    omega

/-- Witness for the amended C8 at the concrete failing run. -/
theorem c8_partial_count_amended_witness :
    (Dio.Write ⟨[0, 0], 0, none, 2, false⟩ ⟨1, [5, 6]⟩ ⟨[.fail 1 (.sys 0)], [], []⟩).nn + 0 ≤
      acceptedCount
        (Dio.Write ⟨[0, 0], 0, none, 2, false⟩ ⟨1, [5, 6]⟩ ⟨[.fail 1 (.sys 0)], [], []⟩).trace +
      (Dio.Write ⟨[0, 0], 0, none, 2, false⟩ ⟨1, [5, 6]⟩
        ⟨[.fail 1 (.sys 0)], [], []⟩).state.n :=
  c8_partial_count_amended ⟨[0, 0], 0, none, 2, false⟩ ⟨1, [5, 6]⟩
    ⟨[.fail 1 (.sys 0)], [], []⟩ (DErr.sys 0) (by decide)

/-- C9 counterexample: with the non-power-of-two blockSize 3 and an aligned
5-byte input on an empty 3-byte buffer, Case A2 computes its split with
len & -blockSize, which equals 5 (not the largest multiple 3): the descriptor
receives a 5-byte prefix that is not a multiple of the block size, and nothing
is staged, contradicting the claim for every blockSize > 0. -/
theorem c9_counterexample :
    (Dio.Write ⟨[0, 0, 0], 0, none, 3, false⟩ ⟨0, [1, 2, 3, 4, 5]⟩ successOracle).trace =
      [Ev.write [1, 2, 3, 4, 5] 5 none] ∧
    (Dio.Write ⟨[0, 0, 0], 0, none, 3, false⟩ ⟨0, [1, 2, 3, 4, 5]⟩ successOracle).state.n = 0 ∧
    ¬(5 : Nat) % 3 = 0 := by
  decide

/-- C9 amended: for power-of-two block sizes (with the Go int bounds), Case A2
splits as claimed: the prefix written directly has length equal to the largest
multiple of blockSize at most the input length, and the remainder of length
len mod blockSize is copied into the empty buffer. -/
theorem c9_split_amended (d : Dio) (p : Ptr) (kk : Nat)
    (hc : d.isClosed = false) (he : d.err = none) (hn : d.n = 0)
    (hbs : d.blockSize = 2 ^ kk) (hk : kk ≤ 63)
    (hx : p.data.length < 2 ^ 63)
    (hcap : d.blockSize ≤ d.bufData.length)
    (hlen : d.bufData.length ≤ p.data.length)
    (hnm : ¬p.data.length % d.blockSize = 0)
    (hal : p.addr % d.blockSize = 0) :
    (d.Write p successOracle).nn = p.data.length ∧
    (d.Write p successOracle).err = none ∧
    (d.Write p successOracle).trace =
      [Ev.write (p.data.take (p.data.length - p.data.length % d.blockSize))
        (p.data.length - p.data.length % d.blockSize) none] ∧
    (d.Write p successOracle).state.n = p.data.length % d.blockSize ∧
    (d.Write p successOracle).state.bufData.take (p.data.length % d.blockSize) =
      p.data.drop (p.data.length - p.data.length % d.blockSize) := by
  obtain ⟨buf, n0, err0, bs0, cl0⟩ := d
  obtain ⟨ad, q⟩ := p
  simp only at hc he hn hal hcap hlen hnm hbs hx ⊢
  subst hc he hn hbs
  set bs := 2 ^ kk with hbsdef
  have hbs0 : 0 < bs := by positivity
  have hmlt : q.length % bs < bs := Nat.mod_lt _ hbs0
  have hl : goAndNeg q.length bs =  q.length - q.length % bs := by
    refine goAndNeg_pow _ kk ?_ (by omega)
    have h2 : (2 : Nat) ^ 63 ≤ 2 ^ 64 := Nat.pow_le_pow_right (by omega) (by omega)
    omega
  have hq0 : q.length ≠ 0 := by intro h0; rw [h0] at hnm; simp at hnm
  have hal2 : align ⟨ad, q⟩ bs = 0 := by
    simp [align, hal, Nat.pos_iff_ne_zero.mp hbs0, hq0]
  have hdlen : (q.drop (goAndNeg q.length bs)).length = q.length % bs := by
    rw [hl]; simp; omega
  have hnl : (q.take (goAndNeg q.length bs)).length = q.length - q.length % bs := by
    rw [hl]; simp
  have hcc : copyCount buf 0 (q.drop (goAndNeg q.length bs)) = q.length % bs := by
    simp [copyCount, hdlen]; omega
  have hculen : (copyInto buf 0 (q.drop (goAndNeg q.length bs))).length = buf.length :=
    copyInto_length _ _ _ (by omega)
  unfold Dio.Write
  simp only [Bool.false_eq_true, if_false]
  rw [show 2 * (⟨ad, q⟩ : Ptr).data.length + 2 = 2 * q.length + 1 + 1 by simp]
  rw [writeAux_A2 (2 * q.length + 1) ⟨buf, 0, none, bs, false⟩ ⟨ad, q⟩
    successOracle successOracle 0
    (q.take (goAndNeg q.length bs)).length none
    (.write (q.take (goAndNeg q.length bs)) (q.take (goAndNeg q.length bs)).length none)
    rfl (by simp; omega) rfl hal2 (by simpa using hnm) (fWrite_success _)]
  simp only
  rw [show copyCount buf 0 (q.drop (goAndNeg q.length bs)) +
      (q.take (goAndNeg q.length bs)).length = q.length by rw [hcc, hnl]; omega]
  rw [writeAux_exit (2 * q.length) _ _ _ _ rfl
    (by simp [Ptr.dropP, hculen, hcc]; omega)]
  simp only [consTrace, Ptr.dropP, List.drop_length, copyInto_nil]
  have hccnil : ∀ (dst : List Nat) (off : Nat), copyCount dst off ([] : List Nat) = 0 := by
    intro dst off; simp [copyCount]
  refine ⟨?g1, ?g2, ?g3, ?g4, ?g5⟩
  case g1 => simp [hccnil]
  case g2 => trivial
  case g3 => rw [hnl, hl]
  case g4 => simp [hccnil, hcc]
  case g5 =>
    rw [copyInto]
    simp only [List.take_zero, List.nil_append, Nat.sub_zero]
    rw [List.take_of_length_le (le_trans (le_of_eq hdlen) (by omega))]
    rw [List.take_append_of_le_length (le_of_eq hdlen.symm)]
    rw [← hdlen, List.take_length, hl]
    rw [show (List.drop (q.length - q.length % bs) q).length = q.length % bs by simp; omega]

/-- Witness for the amended C9 at blockSize 2 and a concrete 5-byte input. -/
theorem c9_split_amended_witness :
    (Dio.Write ⟨[0, 0, 0, 0], 0, none, 2, false⟩ ⟨0, [1, 2, 3, 4, 5]⟩ successOracle).nn =
      (⟨0, [1, 2, 3, 4, 5]⟩ : Ptr).data.length ∧
    (Dio.Write ⟨[0, 0, 0, 0], 0, none, 2, false⟩ ⟨0, [1, 2, 3, 4, 5]⟩ successOracle).err = none ∧
    (Dio.Write ⟨[0, 0, 0, 0], 0, none, 2, false⟩ ⟨0, [1, 2, 3, 4, 5]⟩ successOracle).trace =
      [Ev.write ((⟨0, [1, 2, 3, 4, 5]⟩ : Ptr).data.take
          ((⟨0, [1, 2, 3, 4, 5]⟩ : Ptr).data.length -
            (⟨0, [1, 2, 3, 4, 5]⟩ : Ptr).data.length % 2))
        ((⟨0, [1, 2, 3, 4, 5]⟩ : Ptr).data.length -
          (⟨0, [1, 2, 3, 4, 5]⟩ : Ptr).data.length % 2) none] ∧
    (Dio.Write ⟨[0, 0, 0, 0], 0, none, 2, false⟩ ⟨0, [1, 2, 3, 4, 5]⟩ successOracle).state.n =
      (⟨0, [1, 2, 3, 4, 5]⟩ : Ptr).data.length % 2 ∧
    (Dio.Write ⟨[0, 0, 0, 0], 0, none, 2, false⟩
        ⟨0, [1, 2, 3, 4, 5]⟩ successOracle).state.bufData.take
        ((⟨0, [1, 2, 3, 4, 5]⟩ : Ptr).data.length % 2) =
      (⟨0, [1, 2, 3, 4, 5]⟩ : Ptr).data.drop
        ((⟨0, [1, 2, 3, 4, 5]⟩ : Ptr).data.length -
          (⟨0, [1, 2, 3, 4, 5]⟩ : Ptr).data.length % 2) :=
  c9_split_amended ⟨[0, 0, 0, 0], 0, none, 2, false⟩ ⟨0, [1, 2, 3, 4, 5]⟩ 1
    rfl rfl rfl rfl (by omega) (by decide) (by decide) (by decide) (by decide) (by decide)

/-- C10: in Close's Phase 2, once the fallback tail write succeeds, the result
of the durability sync is discarded: with a descriptor whose sync fails, Close
still returns success, and the failed sync event is visible in the trace. -/
theorem c10_sync_discarded (d : Dio) (e : DErr)
    (hc : d.isClosed = false) (h0 : 0 < d.n) (hb : d.n < d.blockSize) :
    (d.Close ⟨[], [], [some e]⟩).err = none ∧
    Ev.sync (some e) ∈ (d.Close ⟨[], [], [some e]⟩).trace := by
  unfold Dio.Close closePhase2
  simp [hc, Nat.mod_eq_of_lt hb, Nat.pos_iff_ne_zero.mp h0, fSetDirect, fWrite, fSync]

/-- Witness for C10 at a concrete writer with a one-byte tail. -/
theorem c10_sync_discarded_witness :
    (Dio.Close ⟨[7, 7, 0, 0], 1, none, 2, false⟩ ⟨[], [], [some (DErr.sys 5)]⟩).err = none ∧
    Ev.sync (some (DErr.sys 5)) ∈
      (Dio.Close ⟨[7, 7, 0, 0], 1, none, 2, false⟩ ⟨[], [], [some (DErr.sys 5)]⟩).trace :=
  c10_sync_discarded ⟨[7, 7, 0, 0], 1, none, 2, false⟩ (DErr.sys 5) rfl (by decide) (by decide)
